import Mathlib

/-
Verification of the friendtech on-chain scanner against its design
specification.  The Python source is embedded shallowly: pure fragments
become Lean functions over Nat/Int/Rat, stateful fragments become explicit
state passing, fallible fragments return Except.  Machine integers of the
source are Python arbitrary-precision integers, so Nat/Int model them
exactly; Python floor division is Int.fdiv; Python float literals that
matter are handled as exact rationals where the development needs them.
-/

namespace FriendTech

/-! ## Block-range partitioning (src/utils.py, scan_blockchain / handle_block_range)

`scan_blockchain` iterates `for i in range(start_block + 1, last_block + 1,
batch_size)` and hands each sub-range `(i, min(i + batch_size - 1,
last_block))` to `handle_block_range`, which fetches the blocks
`range(start, end)` — a Python `range`, whose upper bound is exclusive. -/

/-- Python `range(a, b)`: the integers from `a` (inclusive) to `b` (exclusive). -/
def pyRange (a b : Nat) : List Nat := List.range' a (b - a)

/-- Python `range(a, b, step)` for a positive step: `a, a + step, …` while below `b`. -/
def pyRangeStep (a b step : Nat) : List Nat :=
  List.range' a ((b - a + step - 1) / step) step

/-- Sub-ranges built by `scan_blockchain`: for each loop index `i` of
`range(start_block + 1, last_block + 1, batch_size)` the pair
`(i, min(i + batch_size - 1, last_block))` passed to `handle_block_range`. -/
def subRanges (startBlock lastBlock batchSize : Nat) : List (Nat × Nat) :=
  (pyRangeStep (startBlock + 1) (lastBlock + 1) batchSize).map
    (fun i => (i, min (i + batchSize - 1) lastBlock))

/-- Blocks fetched by `handle_block_range start end`: it builds one
`scanner.get_trades(block_num)` task per `block_num in range(start, end)`. -/
def handleBlockRangeBlocks (s e : Nat) : List Nat := pyRange s e

/-- All block numbers passed to the block fetcher (`scanner.get_trades`)
during one `scan_blockchain` cycle. -/
def scannedBlocks (startBlock lastBlock batchSize : Nat) : List Nat :=
  (subRanges startBlock lastBlock batchSize).flatMap
    (fun p => handleBlockRangeBlocks p.1 p.2)

/-- C1: at the spec's own end-to-end scenario — last persisted block 100,
chain head 120, batch size 50 — the cycle builds the single sub-range
(101, 120) but fetches only blocks 101..119: block 120 lies in the interval
(100, 120] yet is never passed to the block fetcher, because
`handle_block_range` iterates the end-exclusive `range(start, end)` over an
end bound that `scan_blockchain` computed as inclusive. -/
theorem scan_cycle_skips_block_120 :
    subRanges 100 120 50 = [(101, 120)] ∧
    scannedBlocks 100 120 50 = pyRange 101 120 ∧
    120 ∉ scannedBlocks 100 120 50 ∧
    120 ∈ pyRange 101 121 := by
  refine ⟨by decide, by decide, by decide, by decide⟩

/-! ## Trade records (db/models.py) and trade persistence (db/operations.py)

A `Trade` is the pydantic model of db/models.py: byte strings are modelled
as natural numbers (their big-endian value), `Decimal` wei amounts — which
here always hold uint256 event values — as naturals. -/

/-- Trade record of db/models.py: `bytes` fields are byte lists, Python
`int` fields are `Int`, `Decimal` fields are `Rat`. -/
structure Trade where
  trader : List Nat
  subject : List Nat
  is_buy : Bool
  share_amount : Int
  eth_amount : Rat
  protocol_eth_amount : Rat
  subject_eth_amount : Rat
  supply : Int
  transaction_hash : List Nat
  block_number : Int
  timestamp : Int
deriving DecidableEq, Repr

/-- Modelled from the spec: the trades table's DDL is not part of the
source; the spec's data model fixes "transaction hash is unique per trade
(idempotency key for storage)", so the table is modelled with a UNIQUE
constraint on transaction_hash, under which a plain INSERT of a duplicate
hash fails with a unique violation. -/
def insertTradeRowPlain (table : List Trade) (t : Trade) :
    Except String (List Trade) :=
  if table.any (fun r => r.transaction_hash = t.transaction_hash) then
    Except.error "unique violation on trades.transaction_hash"
  else
    Except.ok (table ++ [t])

/-- Embedding of `insert_trades` (db/operations.py): the function first
builds an `INSERT … ON CONFLICT (transaction_hash) DO NOTHING` query, then
immediately rebinds `query` to a plain `INSERT INTO trades … VALUES …`
with no conflict clause, and executes that plain insert for every record. -/
def insert_trades (table : List Trade) (trades : List Trade) :
    Except String (List Trade) :=
  trades.foldlM insertTradeRowPlain table

/-- Dead first query of `insert_trades`: the `ON CONFLICT (transaction_hash)
DO NOTHING` insert that the source constructs and then discards. -/
def insertTradesOnConflictDoNothing (table : List Trade) (trades : List Trade) :
    List Trade :=
  trades.foldl
    (fun acc t =>
      if acc.any (fun r => r.transaction_hash = t.transaction_hash) then acc
      else acc ++ [t])
    table

/-- Example trade used for concrete evaluations. -/
def sampleTrade : Trade :=
  { trader := [0xa1], subject := [0xb2], is_buy := true, share_amount := 1,
    eth_amount := 62500000000000, protocol_eth_amount := 3125000000000,
    subject_eth_amount := 3125000000000, supply := 2,
    transaction_hash := [0xfe, 0xed], block_number := 101, timestamp := 1000 }

/-- C2: trade insertion as executed is not idempotent on transaction hash.
Inserting `sampleTrade` into an empty table succeeds, but inserting it a
second time fails with a unique violation instead of leaving the single
row in place, because the executed query is the plain INSERT (the
ON CONFLICT DO NOTHING query is built and then overwritten).  The discarded
first query would have been idempotent. -/
theorem insert_trades_not_idempotent :
    insert_trades [] [sampleTrade] = Except.ok [sampleTrade] ∧
    insert_trades [sampleTrade] [sampleTrade] =
      Except.error "unique violation on trades.transaction_hash" ∧
    insertTradesOnConflictDoNothing [sampleTrade] [sampleTrade] =
      [sampleTrade] := by
  refine ⟨rfl, rfl, by decide⟩

/-! ## Pydantic validation (db/models.py) and event decoding (src/scanner.py)

Field values arriving from web3 decoding are modelled by `PyVal`, a sum of
the Python runtime types the validators of db/models.py distinguish. -/

/-- Python runtime value as seen by the pydantic validators: `HexBytes`
and `bytes` are both `pyBytes`. -/
inductive PyVal where
  | pyStr (s : String)
  | pyBytes (b : List Nat)
  | pyInt (n : Int)
  | pyFloat (q : Rat)
  | pyDecimal (q : Rat)
  | pyBool (b : Bool)
  | pyNone
deriving DecidableEq, Repr

/-- Value of one hexadecimal digit character, if any. -/
def hexDigitVal (c : Char) : Option Nat :=
  if c.isDigit then some (c.toNat - 48)
  else if 97 ≤ c.toNat ∧ c.toNat ≤ 102 then some (c.toNat - 87)
  else if 65 ≤ c.toNat ∧ c.toNat ≤ 70 then some (c.toNat - 55)
  else none

/-- Python `bytes.fromhex`: pairs of hex digits to bytes, failing on an odd
length or a non-hex character. -/
def hexPairsToBytes : List Char → Option (List Nat)
  | [] => some []
  | [_] => none
  | c1 :: c2 :: rest => do
      let h ← hexDigitVal c1
      let l ← hexDigitVal c2
      let bs ← hexPairsToBytes rest
      pure ((16 * h + l) :: bs)

/-- Python `int(s, 16)` on the digits after a `0x` prefix: fails when no
digit or a non-hex character is present. -/
def hexDigitsToNat (cs : List Char) : Option Nat :=
  match cs with
  | [] => none
  | _ =>
    cs.foldl
      (fun acc c => do
        let a ← acc
        let d ← hexDigitVal c
        pure (16 * a + d))
      (some 0)

/-- Python `str.startswith(p)` on the strings used here. -/
def pyStartsWith (s p : String) : Bool :=
  s.toList.take p.toList.length == p.toList

/-- Python `str.isdigit`: nonempty and all decimal digits. -/
def pyIsdigit (s : String) : Bool :=
  !s.toList.isEmpty && s.toList.all Char.isDigit

/-- Python `int(s)` on an all-digit string. -/
def decDigitsToNat (cs : List Char) : Option Nat :=
  match cs with
  | [] => none
  | _ =>
    cs.foldl
      (fun acc c => do
        let a ← acc
        let d ← if c.isDigit then some (c.toNat - 48) else none
        pure (10 * a + d))
      (some 0)

/-- Python `str.split(sep)` for the one-character separator used here. -/
def splitOn1 (sep : Char) : List Char → List (List Char)
  | [] => [[]]
  | c :: rest =>
    if c = sep then [] :: splitOn1 sep rest
    else
      match splitOn1 sep rest with
      | w :: ws => (c :: w) :: ws
      | [] => [[c]]

/-- Validator `convert_to_bytes` of db/models.py: a `0x`-prefixed hex
string is decoded with `bytes.fromhex`, `HexBytes` and `bytes` pass
through, everything else raises. -/
def convert_to_bytes (v : PyVal) : Except String PyVal :=
  match v with
  | .pyStr s =>
      if pyStartsWith s "0x" then
        match hexPairsToBytes (s.toList.drop 2) with
        | some bs => .ok (.pyBytes bs)
        | none => .error "non-hexadecimal number found in fromhex arg"
      else .error "Expected a hex string, HexBytes, or bytes"
  | .pyBytes b => .ok (.pyBytes b)
  | _ => .error "Expected a hex string, HexBytes, or bytes"

/-- Python `int(q)` on a float: truncation toward zero. -/
def pyTruncRat (q : Rat) : Int := Int.tdiv q.num (q.den : Int)

/-- Validator `convert_to_int` of db/models.py.  An `int` or an
all-digit / `0x`-hex string converts; a float truncates; a string that is
neither all digits nor `0x`-prefixed falls off the `elif` chain and the
function implicitly returns `None`; any other type raises. -/
def convert_to_int (v : PyVal) : Except String PyVal :=
  match v with
  | .pyInt n => .ok (.pyInt n)
  | .pyStr s =>
      if pyIsdigit s then
        match decDigitsToNat s.toList with
        | some n => .ok (.pyInt (n : Int))
        | none => .error "invalid literal for int"
      else if pyStartsWith s "0x" then
        match hexDigitsToNat (s.toList.drop 2) with
        | some n => .ok (.pyInt (n : Int))
        | none => .error "invalid literal for int with base 16"
      else .ok .pyNone
  | .pyFloat q => .ok (.pyInt (pyTruncRat q))
  | _ => .error "Expected a numerical value"

/-- Python `Decimal(s)` restricted to the digit strings (with one optional
fractional part) that arise here; anything else raises `InvalidOperation`. -/
def pyDecimalOfString (s : String) : Option Rat :=
  match splitOn1 '.' s.toList with
  | [w] => (decDigitsToNat w).map (fun n => (n : Rat))
  | [w, f] => do
      let nw ← decDigitsToNat w
      let nf ← decDigitsToNat f
      pure ((nw : Rat) + (nf : Rat) / ((10 : Rat) ^ f.length))
  | _ => none

/-- Validator `convert_to_decimal` of db/models.py: `Decimal` passes,
`str`/`float`/`int` convert through `Decimal(value)`, any other value is
returned unchanged (to fail pydantic's own type check afterwards). -/
def convert_to_decimal (v : PyVal) : Except String PyVal :=
  match v with
  | .pyDecimal q => .ok (.pyDecimal q)
  | .pyStr s =>
      match pyDecimalOfString s with
      | some q => .ok (.pyDecimal q)
      | none => .error "InvalidOperation"
  | .pyFloat q => .ok (.pyDecimal q)
  | .pyInt n => .ok (.pyDecimal (n : Rat))
  | w => .ok w

/-- Field typing after `convert_to_bytes`: the model field is `bytes`. -/
def toBytesField (v : PyVal) : Except String (List Nat) := do
  match ← convert_to_bytes v with
  | .pyBytes b => pure b
  | _ => throw "value is not bytes"

/-- Field typing after `convert_to_int`: the model field is `int`, so the
`None` the validator can produce is itself a validation error. -/
def toIntField (v : PyVal) : Except String Int := do
  match ← convert_to_int v with
  | .pyInt n => pure n
  | _ => throw "value is not an int"

/-- Field typing after `convert_to_decimal`: the model field is `Decimal`. -/
def toDecimalField (v : PyVal) : Except String Rat := do
  match ← convert_to_decimal v with
  | .pyDecimal q => pure q
  | _ => throw "value is not a Decimal"

/-- Field typing for `is_buy`: the model field is `bool` with no custom
validator; the decoded event supplies a Python bool. -/
def toBoolField (v : PyVal) : Except String Bool :=
  match v with
  | .pyBool b => .ok b
  | _ => .error "value is not a bool"

/-- Receipt log carrying the event arguments that
`contract.events.Trade().process_log` decodes from it. -/
structure TradeLog where
  topic0 : List Nat
  trader : PyVal
  subject : PyVal
  isBuy : PyVal
  shareAmount : PyVal
  ethAmount : PyVal
  protocolEthAmount : PyVal
  subjectEthAmount : PyVal
  supply : PyVal
deriving DecidableEq, Repr

/-- Transaction receipt as `_decode_trade_events` reads it: a status, the
transaction hash and block number reported by the decoded events, and the
logs. -/
structure Receipt where
  status : Int
  transactionHash : PyVal
  blockNumber : PyVal
  logs : List TradeLog
deriving DecidableEq, Repr

/-- Embedding of `Trade.model_validate(trade_data)`: every field of the
`trade_data` dict built in `_decode_trade_events` runs its validator, in
model field order; the first failure aborts with a ValidationError. -/
def tradeModelValidate (lg : TradeLog) (txHash blockNo : PyVal) (ts : Int) :
    Except String Trade := do
  let trader ← toBytesField lg.trader
  let subject ← toBytesField lg.subject
  let is_buy ← toBoolField lg.isBuy
  let share_amount ← toIntField lg.shareAmount
  let eth_amount ← toDecimalField lg.ethAmount
  let protocol_eth_amount ← toDecimalField lg.protocolEthAmount
  let subject_eth_amount ← toDecimalField lg.subjectEthAmount
  let supply ← toIntField lg.supply
  let transaction_hash ← toBytesField txHash
  let block_number ← toIntField blockNo
  let timestamp ← toIntField (.pyInt ts)
  pure { trader, subject, is_buy, share_amount, eth_amount,
         protocol_eth_amount, subject_eth_amount, supply,
         transaction_hash, block_number, timestamp }

/-- One attempt of the body of `_decode_trade_events`: when the receipt
status is 1, every log whose first topic equals the event signature hash is
decoded and validated, appending to `trades`; a validation error is logged
and re-raised, aborting this transaction's decode.  When the status is not
1 the log loop is skipped and the empty trade list is returned. -/
def decodeOnce (sig : List Nat) (r : Receipt) (ts : Int) :
    Except String (List Trade) :=
  if r.status = 1 then
    r.logs.foldlM
      (fun acc lg =>
        if lg.topic0 = sig then do
          let t ← tradeModelValidate lg r.transactionHash r.blockNumber ts
          pure (acc ++ [t])
        else pure acc)
      []
  else .ok []

/-- Retry policy `backoff.on_exception(backoff.constant, Exception,
max_tries=n)` around a deterministic body whose result is `r`: returns the
number of attempts made together with the final outcome.  An exception is
re-raised only once the try budget is exhausted. -/
def backoffRetry {ε α : Type} : Nat → Except ε α → Nat × Except ε α
  | 0, r => (0, r)
  | 1, r => (1, r)
  | n + 2, r =>
    match r with
    | .ok a => (1, .ok a)
    | .error _ => ((backoffRetry (n + 1) r).1 + 1, (backoffRetry (n + 1) r).2)

/-- Embedding of `_decode_trade_events` with its decorator
`backoff.on_exception(backoff.constant, Exception, interval=1,
max_tries=1000000)`: attempts made, and the final outcome. -/
def decode_trade_events (sig : List Nat) (r : Receipt) (ts : Int) :
    Nat × Except String (List Trade) :=
  backoffRetry 1000000 (decodeOnce sig r ts)

/-- Handling of one gathered per-transaction result in `get_trades`: an
exception is logged and skipped, a success extends the trade list. -/
def getTradesStep (sig : List Nat) (ts : Int) (acc : List Trade)
    (r : Receipt) : List Trade :=
  match (decode_trade_events sig r ts).2 with
  | .ok l => acc ++ l
  | .error _ => acc

/-- Embedding of `get_trades`: the per-transaction decodes are gathered
with `return_exceptions=True`; results that are exceptions are logged and
skipped, the rest extend the block's trade list in order. -/
def get_trades (sig : List Nat) (receipts : List Receipt) (ts : Int) :
    List Trade :=
  receipts.foldl (getTradesStep sig ts) []

theorem backoffRetry_error {ε α : Type} (e : ε) :
    ∀ n : Nat, 1 ≤ n →
      backoffRetry (α := α) n (Except.error e) = (n, Except.error e) := by
  intro n
  induction n with
  | zero => intro h; omega
  | succ m ih =>
    intro _
    match m, ih with
    | 0, _ => rfl
    | k + 1, ih =>
      have h := ih (by omega)
      simp [backoffRetry, h]

theorem backoffRetry_ok {ε α : Type} (a : α) :
    ∀ n : Nat, 1 ≤ n →
      backoffRetry (ε := ε) n (Except.ok a) = (1, Except.ok a) := by
  intro n
  induction n with
  | zero => intro h; omega
  | succ m ih =>
    intro _
    match m, ih with
    | 0, _ => rfl
    | k + 1, _ => rfl

theorem backoffRetry_snd {ε α : Type} (r : Except ε α) (n : Nat) (h : 1 ≤ n) :
    (backoffRetry n r).2 = r := by
  match r with
  | .ok a => rw [backoffRetry_ok a n h]
  | .error e => rw [backoffRetry_error e n h]

theorem getTradesStep_of_error (sig : List Nat) (ts : Int) (r : Receipt)
    (e : String) (h : decodeOnce sig r ts = Except.error e)
    (acc : List Trade) : getTradesStep sig ts acc r = acc := by
  rw [getTradesStep, decode_trade_events,
    backoffRetry_snd _ 1000000 (by omega), h]

/-- Event signature topic used in the concrete decoding scenarios. -/
def eventSig : List Nat := List.replicate 32 0xab

/-- Log that decodes and validates into a trade. -/
def goodLog : TradeLog :=
  { topic0 := eventSig, trader := .pyBytes [1], subject := .pyBytes [2],
    isBuy := .pyBool true, shareAmount := .pyInt 1, ethAmount := .pyInt 100,
    protocolEthAmount := .pyInt 5, subjectEthAmount := .pyInt 5,
    supply := .pyInt 3 }

/-- Log whose first topic matches the event signature but whose `trader`
field is a non-hex string, so schema validation fails. -/
def badLog : TradeLog := { goodLog with trader := .pyStr "zz" }

/-- Receipt of a successful transaction with one valid trade log. -/
def goodReceipt : Receipt :=
  { status := 1, transactionHash := .pyBytes [0xaa],
    blockNumber := .pyInt 101, logs := [goodLog] }

/-- Receipt of a successful transaction whose matching log fails
validation. -/
def badReceipt : Receipt :=
  { status := 1, transactionHash := .pyBytes [0xbb],
    blockNumber := .pyInt 101, logs := [badLog] }

/-- Receipt of a reverted transaction (status 0) that still carries a log
matching the event signature. -/
def revertedReceipt : Receipt :=
  { status := 0, transactionHash := .pyBytes [0xcc],
    blockNumber := .pyInt 101, logs := [goodLog] }

/-- C3, counterexample: a transaction whose matching log fails schema
validation has its decode attempted 1000000 times — the blanket
`backoff.on_exception(…, Exception, max_tries=1000000)` decorator on
`_decode_trade_events` also catches the re-raised ValidationError — so the
decode IS retried, contradicting the claim that the validation error is
propagated after a single attempt. -/
theorem decode_validation_error_is_retried :
    decodeOnce eventSig badReceipt 5 =
      Except.error "Expected a hex string, HexBytes, or bytes" ∧
    (decode_trade_events eventSig badReceipt 5).1 = 1000000 ∧
    (decode_trade_events eventSig badReceipt 5).1 ≠ 1 := by
  have h : decodeOnce eventSig badReceipt 5 =
      Except.error "Expected a hex string, HexBytes, or bytes" := rfl
  have h2 : decode_trade_events eventSig badReceipt 5 =
      (1000000, Except.error "Expected a hex string, HexBytes, or bytes") := by
    rw [decode_trade_events, h, backoffRetry_error _ 1000000 (by omega)]
  exact ⟨h, by rw [h2], by rw [h2]; decide⟩

/-- C3, amended: a transaction whose matching log fails schema validation
is retried 1000000 times by the shared retry decorator, then the
validation error is propagated once; `get_trades` drops exactly that
transaction's trades from the batch result while every other transaction
of the block is still decoded and returned. -/
theorem decode_validation_failure_retried_then_dropped
    (sig : List Nat) (ts : Int) (r : Receipt) (e : String)
    (h : decodeOnce sig r ts = Except.error e) (rs₁ rs₂ : List Receipt) :
    decode_trade_events sig r ts = (1000000, Except.error e) ∧
    get_trades sig (rs₁ ++ r :: rs₂) ts = get_trades sig (rs₁ ++ rs₂) ts := by
  constructor
  · rw [decode_trade_events, h, backoffRetry_error e 1000000 (by omega)]
  · rw [get_trades, get_trades, List.foldl_append, List.foldl_append,
      List.foldl_cons, getTradesStep_of_error sig ts r e h]

/-- C3, amended, witness: with one valid and one validation-failing
transaction in a block, the failing one is retried 1000000 times and then
dropped, leaving the valid transaction's trades in the result. -/
theorem decode_validation_failure_retried_then_dropped_witness :
    decode_trade_events eventSig badReceipt 5 =
      (1000000, Except.error "Expected a hex string, HexBytes, or bytes") ∧
    get_trades eventSig ([goodReceipt] ++ badReceipt :: [goodReceipt]) 5 =
      get_trades eventSig ([goodReceipt] ++ [goodReceipt]) 5 :=
  decode_validation_failure_retried_then_dropped eventSig 5 badReceipt
    "Expected a hex string, HexBytes, or bytes" rfl [goodReceipt] [goodReceipt]

/-- C10: a transaction whose receipt status is not 1 (a reverted
transaction) decodes to the empty trade list on the first attempt — the
log loop is guarded by `if tx_receipt.status == 1` — so no Trade is ever
constructed from the logs of an unsuccessful transaction. -/
theorem reverted_tx_decodes_to_no_trades (sig : List Nat) (r : Receipt)
    (ts : Int) (h : r.status ≠ 1) :
    decode_trade_events sig r ts = (1, Except.ok []) := by
  have hd : decodeOnce sig r ts = Except.ok [] := by
    rw [decodeOnce, if_neg h]
  rw [decode_trade_events, hd, backoffRetry_ok _ 1000000 (by omega)]

/-- C10, witness: the concrete reverted receipt, whose only log matches the
event signature, decodes to no trades. -/
theorem reverted_tx_decodes_to_no_trades_witness :
    revertedReceipt.status ≠ 1 ∧
    decode_trade_events eventSig revertedReceipt 5 = (1, Except.ok []) :=
  ⟨by decide, reverted_tx_decodes_to_no_trades eventSig revertedReceipt 5
    (by decide)⟩

/-! ## Trade reduction (src/utils.py, process_trades_to_shares)

`process_trades_to_shares` folds the batch into the insertion-ordered dict
`most_recent_trades`, replacing the stored trade of a subject only when the
incoming trade's timestamp is strictly greater. -/

/-- Python dict assignment `d[k] = v` for a key already present: the value
is replaced, the key keeps its insertion position. -/
def dictSet (acc : List (List Nat × Trade)) (k : List Nat) (v : Trade) :
    List (List Nat × Trade) :=
  acc.map (fun p => if p.1 = k then (k, v) else p)

/-- One iteration of the `for trade in trades` loop over
`most_recent_trades`: replace the subject's entry only when the new trade's
timestamp is strictly greater, insert when the subject is absent. -/
def updateMostRecent (acc : List (List Nat × Trade)) (t : Trade) :
    List (List Nat × Trade) :=
  match acc.lookup t.subject with
  | some old =>
      if t.timestamp > old.timestamp then dictSet acc t.subject t else acc
  | none => acc ++ [(t.subject, t)]

/-- The dict `most_recent_trades` after the whole loop. -/
def reduceToLatest (trades : List Trade) : List (List Nat × Trade) :=
  trades.foldl updateMostRecent []

/-- `list(most_recent_trades.values())` — the representative trades. -/
def mostRecentTrades (trades : List Trade) : List Trade :=
  (reduceToLatest trades).map Prod.snd

/-- Specification-side reducer for one subject's trades, following the
claim's words up to the tie-break direction: the first trade of the list
whose timestamp is at least that of every trade of the list — the earliest
trade attaining the greatest timestamp. -/
def firstWithGreatestTs (l : List Trade) : Option Trade :=
  l.find? (fun t => l.all (fun u => decide (u.timestamp ≤ t.timestamp)))

/-- The better of a stored representative and a newly seen trade, as the
loop body decides it: the new trade only on strictly greater timestamp. -/
def pickLater (m t : Trade) : Trade :=
  if t.timestamp > m.timestamp then t else m

theorem find?_congrOn {α : Type} (p q : α → Bool) :
    ∀ l : List α, (∀ x ∈ l, p x = q x) → l.find? p = l.find? q := by
  intro l
  induction l with
  | nil => intro _; rfl
  | cons a l ih =>
    intro h
    simp only [List.find?_cons]
    rw [h a (by simp)]
    cases q a
    · exact ih (fun x hx => h x (by simp [hx]))
    · rfl

theorem firstWithGreatestTs_singleton (m : Trade) :
    firstWithGreatestTs [m] = some m := by
  simp [firstWithGreatestTs]

theorem firstWithGreatestTs_shift (a b : Trade) (l : List Trade) :
    firstWithGreatestTs (a :: b :: l) =
      firstWithGreatestTs (pickLater a b :: l) := by
  by_cases hab : b.timestamp > a.timestamp
  · have hba : ¬ b.timestamp ≤ a.timestamp := by omega
    rw [pickLater, if_pos hab]
    have hpa : ((a :: b :: l).all
        (fun u => decide (u.timestamp ≤ a.timestamp))) = false := by
      simp [List.all_cons, hba]
    have hL : firstWithGreatestTs (a :: b :: l) =
        List.find?
          (fun t => (a :: b :: l).all
            (fun u => decide (u.timestamp ≤ t.timestamp))) (b :: l) := by
      rw [firstWithGreatestTs, List.find?_cons, hpa]
    rw [hL, firstWithGreatestTs]
    refine find?_congrOn _ _ (b :: l) (fun x _ => ?_)
    simp only [List.all_cons]
    by_cases hbx : b.timestamp ≤ x.timestamp
    · have hax : a.timestamp ≤ x.timestamp := by omega
      simp [hax, hbx]
    · simp [hbx]
  · rw [pickLater, if_neg hab]
    have hba : b.timestamp ≤ a.timestamp := by omega
    have hpa : ((a :: b :: l).all
          (fun u => decide (u.timestamp ≤ a.timestamp)))
        = ((a :: l).all (fun u => decide (u.timestamp ≤ a.timestamp))) := by
      simp [List.all_cons, hba]
    cases hqa : ((a :: l).all (fun u => decide (u.timestamp ≤ a.timestamp)))
    · have hnotall : ¬ ∀ u ∈ l, u.timestamp ≤ a.timestamp := by
        intro hall
        have htrue : ((a :: l).all
            (fun u => decide (u.timestamp ≤ a.timestamp))) = true := by
          simp only [List.all_cons, List.all_eq_true, Bool.and_eq_true,
            decide_eq_true_eq]
          exact ⟨le_refl _, fun u hu => hall u hu⟩
        rw [hqa] at htrue
        exact Bool.false_ne_true htrue
      push_neg at hnotall
      obtain ⟨u, hu, hua⟩ := hnotall
      cases hpb : ((a :: b :: l).all
          (fun v => decide (v.timestamp ≤ b.timestamp)))
      · have hL : firstWithGreatestTs (a :: b :: l) =
            List.find?
              (fun t => (a :: b :: l).all
                (fun v => decide (v.timestamp ≤ t.timestamp))) l := by
          rw [firstWithGreatestTs, List.find?_cons, hpa.trans hqa]
          show List.find?
            (fun t => (a :: b :: l).all
              (fun v => decide (v.timestamp ≤ t.timestamp))) (b :: l) = _
          rw [List.find?_cons, hpb]
        have hR : firstWithGreatestTs (a :: l) =
            List.find?
              (fun t => (a :: l).all
                (fun v => decide (v.timestamp ≤ t.timestamp))) l := by
          rw [firstWithGreatestTs, List.find?_cons, hqa]
        rw [hL, hR]
        refine find?_congrOn _ _ l (fun x _ => ?_)
        simp only [List.all_cons]
        by_cases hax : a.timestamp ≤ x.timestamp
        · have hbx : b.timestamp ≤ x.timestamp := by omega
          simp [hax, hbx]
        · simp [hax]
      · exfalso
        have hub : u.timestamp ≤ b.timestamp := by
          have := List.all_eq_true.mp hpb u
            (by simp [hu])
          simpa using this
        omega
    · have hL : firstWithGreatestTs (a :: b :: l) = some a := by
        rw [firstWithGreatestTs, List.find?_cons, hpa.trans hqa]
      have hR : firstWithGreatestTs (a :: l) = some a := by
        rw [firstWithGreatestTs, List.find?_cons, hqa]
      rw [hL, hR]

theorem foldl_pickLater_eq_firstWithGreatestTs :
    ∀ (l : List Trade) (m : Trade),
      some (l.foldl pickLater m) = firstWithGreatestTs (m :: l) := by
  intro l
  induction l with
  | nil => intro m; rw [firstWithGreatestTs_singleton]; rfl
  | cons t ts ih =>
    intro m
    rw [List.foldl_cons, ih (pickLater m t), firstWithGreatestTs_shift]

/-- Per-subject view of the dict fold: the stored representative after
processing a subject's trades in order, new trade winning only on a
strictly greater timestamp. -/
def reduceSpecAcc : Option Trade → List Trade → Option Trade
  | cur, [] => cur
  | none, t :: ts => some (ts.foldl pickLater t)
  | some m, l => some (l.foldl pickLater m)

theorem reduceSpecAcc_some (m : Trade) :
    ∀ l : List Trade, reduceSpecAcc (some m) l = some (l.foldl pickLater m) := by
  intro l; cases l <;> rfl

theorem reduceSpecAcc_none_cons (t : Trade) (ts : List Trade) :
    reduceSpecAcc none (t :: ts) = some (ts.foldl pickLater t) := rfl

theorem lookup_cons (s : List Nat) (p : List Nat × Trade)
    (l : List (List Nat × Trade)) :
    List.lookup s (p :: l) = if s = p.1 then some p.2 else List.lookup s l := by
  by_cases h : s = p.1
  · have hb : (s == p.1) = true := by simp [h]
    simp [List.lookup, hb, h]
  · have hb : (s == p.1) = false := by simp [h]
    simp [List.lookup, hb, h]

theorem dictSet_cons (p : List Nat × Trade) (acc : List (List Nat × Trade))
    (k : List Nat) (v : Trade) :
    dictSet (p :: acc) k v =
      (if p.1 = k then (k, v) else p) :: dictSet acc k v := rfl

theorem dictSet_lookup_self (k : List Nat) (v : Trade) :
    ∀ acc : List (List Nat × Trade),
      List.lookup k (dictSet acc k v) =
        (List.lookup k acc).map (fun _ => v) := by
  intro acc
  induction acc with
  | nil => rfl
  | cons p acc ih =>
    rw [dictSet_cons, lookup_cons, lookup_cons]
    by_cases h : p.1 = k
    · rw [if_pos h, if_pos h.symm]
      simp
    · have h2 : ¬ k = p.1 := fun he => h he.symm
      rw [if_neg h, if_neg h2, if_neg h2]
      exact ih

theorem dictSet_lookup_ne (k s : List Nat) (v : Trade) (hne : s ≠ k) :
    ∀ acc : List (List Nat × Trade),
      List.lookup s (dictSet acc k v) = List.lookup s acc := by
  intro acc
  induction acc with
  | nil => rfl
  | cons p acc ih =>
    rw [dictSet_cons, lookup_cons, lookup_cons]
    by_cases h : p.1 = k
    · rw [if_pos h]
      have hs1 : ¬ s = (k, v).1 := hne
      have hs2 : ¬ s = p.1 := fun he => hne (he.trans h)
      rw [if_neg hs1, if_neg hs2]
      exact ih
    · rw [if_neg h]
      by_cases hs : s = p.1
      · rw [if_pos hs, if_pos hs]
      · rw [if_neg hs, if_neg hs]
        exact ih

theorem lookup_append (s : List Nat) (l2 : List (List Nat × Trade)) :
    ∀ l1 : List (List Nat × Trade),
      List.lookup s (l1 ++ l2) =
        match List.lookup s l1 with
        | some v => some v
        | none => List.lookup s l2 := by
  intro l1
  induction l1 with
  | nil => rfl
  | cons p l1 ih =>
    rw [List.cons_append, lookup_cons, lookup_cons]
    by_cases h : s = p.1
    · rw [if_pos h, if_pos h]
    · rw [if_neg h, if_neg h]
      exact ih

theorem updateMostRecent_of_gt (acc : List (List Nat × Trade)) (t m : Trade)
    (hl : List.lookup t.subject acc = some m)
    (hts : t.timestamp > m.timestamp) :
    updateMostRecent acc t = dictSet acc t.subject t := by
  rw [updateMostRecent, hl]
  exact if_pos hts

theorem updateMostRecent_of_le (acc : List (List Nat × Trade)) (t m : Trade)
    (hl : List.lookup t.subject acc = some m)
    (hts : ¬ t.timestamp > m.timestamp) :
    updateMostRecent acc t = acc := by
  rw [updateMostRecent, hl]
  exact if_neg hts

theorem updateMostRecent_of_none (acc : List (List Nat × Trade)) (t : Trade)
    (hl : List.lookup t.subject acc = none) :
    updateMostRecent acc t = acc ++ [(t.subject, t)] := by
  rw [updateMostRecent, hl]

theorem updateMostRecent_lookup (acc : List (List Nat × Trade)) (t : Trade)
    (s : List Nat) :
    List.lookup s (updateMostRecent acc t) =
      if t.subject = s then
        some (match List.lookup s acc with
              | none => t
              | some m => pickLater m t)
      else List.lookup s acc := by
  by_cases hs : t.subject = s
  · subst hs
    rw [if_pos rfl]
    cases hl : List.lookup t.subject acc with
    | none =>
      rw [updateMostRecent_of_none acc t hl, lookup_append, hl, lookup_cons,
        if_pos rfl]
    | some m =>
      by_cases hts : t.timestamp > m.timestamp
      · rw [updateMostRecent_of_gt acc t m hl hts, dictSet_lookup_self, hl]
        show some t = some (pickLater m t)
        rw [pickLater, if_pos hts]
      · rw [updateMostRecent_of_le acc t m hl hts, hl]
        show some m = some (pickLater m t)
        rw [pickLater, if_neg hts]
  · rw [if_neg hs]
    cases hl : List.lookup t.subject acc with
    | none =>
      rw [updateMostRecent_of_none acc t hl, lookup_append]
      cases hs2 : List.lookup s acc with
      | some v => rfl
      | none =>
        rw [lookup_cons, if_neg (fun he => hs he.symm)]
        rfl
    | some m =>
      by_cases hts : t.timestamp > m.timestamp
      · rw [updateMostRecent_of_gt acc t m hl hts,
          dictSet_lookup_ne _ _ _ (fun he => hs he.symm)]
      · rw [updateMostRecent_of_le acc t m hl hts]

theorem foldl_updateMostRecent_lookup (s : List Nat) :
    ∀ (trades : List Trade) (acc : List (List Nat × Trade)),
      List.lookup s (trades.foldl updateMostRecent acc) =
        reduceSpecAcc (List.lookup s acc)
          (trades.filter (fun t => t.subject == s)) := by
  intro trades
  induction trades with
  | nil =>
    intro acc
    rw [List.foldl_nil, List.filter_nil]
    cases hl : List.lookup s acc <;> rfl
  | cons t ts ih =>
    intro acc
    rw [List.foldl_cons, ih (updateMostRecent acc t)]
    by_cases hs : t.subject = s
    · have hft : (t :: ts).filter (fun u => u.subject == s) =
          t :: ts.filter (fun u => u.subject == s) := by
        simp [List.filter_cons, hs]
      rw [hft, updateMostRecent_lookup, if_pos hs]
      cases hl : List.lookup s acc with
      | none =>
        rw [reduceSpecAcc_none_cons, reduceSpecAcc_some]
      | some m =>
        rw [reduceSpecAcc_some, reduceSpecAcc_some, List.foldl_cons]
    · have hft : (t :: ts).filter (fun u => u.subject == s) =
          ts.filter (fun u => u.subject == s) := by
        simp [List.filter_cons, hs]
      rw [hft, updateMostRecent_lookup, if_neg hs]

theorem lookup_ne_none_of_key_mem :
    ∀ (l : List (List Nat × Trade)) (k : List Nat),
      k ∈ l.map Prod.fst → List.lookup k l ≠ none := by
  intro l
  induction l with
  | nil => intro k h; simp at h
  | cons p l ih =>
    intro k h
    rw [lookup_cons]
    by_cases hk : k = p.1
    · rw [if_pos hk]; simp
    · rw [if_neg hk]
      refine ih k ?_
      simp only [List.map_cons, List.mem_cons] at h
      rcases h with h | h
      · exact absurd h hk
      · exact h

/-- Keys of the dict `most_recent_trades` are pairwise distinct: dict
assignment to an existing key keeps the key list, insertion appends a key
that was absent. -/
theorem reduceToLatest_keys_nodup (trades : List Trade) :
    ((reduceToLatest trades).map Prod.fst).Nodup := by
  rw [reduceToLatest]
  have main : ∀ (ts : List Trade) (acc : List (List Nat × Trade)),
      (acc.map Prod.fst).Nodup →
      ((ts.foldl updateMostRecent acc).map Prod.fst).Nodup := by
    intro ts
    induction ts with
    | nil => intro acc h; exact h
    | cons t ts ih =>
      intro acc h
      rw [List.foldl_cons]
      refine ih _ ?_
      cases hl : List.lookup t.subject acc with
      | some m =>
        by_cases hts : t.timestamp > m.timestamp
        · rw [updateMostRecent_of_gt acc t m hl hts]
          have hkeys : (dictSet acc t.subject t).map Prod.fst =
              acc.map Prod.fst := by
            rw [dictSet, List.map_map]
            refine List.map_congr_left (fun p _ => ?_)
            by_cases hp : p.1 = t.subject
            · simp [hp]
            · simp [hp]
          rw [hkeys]; exact h
        · rw [updateMostRecent_of_le acc t m hl hts]; exact h
      | none =>
        rw [updateMostRecent_of_none acc t hl, List.map_append]
        have habs : t.subject ∉ acc.map Prod.fst := by
          intro hmem
          exact lookup_ne_none_of_key_mem acc t.subject hmem hl
        exact List.Nodup.append h (List.nodup_singleton _)
          (by simpa using habs)
  exact main trades [] (by simp)

/-- Two trades of one subject that tie on timestamp, distinguished by
transaction hash. -/
def tieTradeA : Trade := { sampleTrade with transaction_hash := [1], timestamp := 30 }

/-- Second trade of the tie, seen later in batch order. -/
def tieTradeB : Trade := { sampleTrade with transaction_hash := [2], timestamp := 30 }

/-- C4, counterexample: on a timestamp tie the reducer keeps the FIRST
trade seen in batch order, not the last — the loop replaces the stored
trade only on `trade.timestamp > stored.timestamp`, which is false on a
tie.  For the batch [tieTradeA, tieTradeB] of one subject at equal
timestamps the representative is tieTradeA, while the claim's
last-seen-wins rule demands tieTradeB. -/
theorem reducer_tie_keeps_first_seen_not_last :
    mostRecentTrades [tieTradeA, tieTradeB] = [tieTradeA] ∧
    tieTradeA ≠ tieTradeB := by
  refine ⟨rfl, by decide⟩

/-- Trade of the spec's reducer-correctness example at timestamp 10. -/
def exTrade10 : Trade := { sampleTrade with transaction_hash := [10], timestamp := 10 }

/-- Trade of the example at timestamp 30 — the expected representative. -/
def exTrade30 : Trade := { sampleTrade with transaction_hash := [30], timestamp := 30 }

/-- Trade of the example at timestamp 20. -/
def exTrade20 : Trade := { sampleTrade with transaction_hash := [20], timestamp := 20 }

/-- C4, amended: the reducer selects exactly one representative trade per
subject — the dict keys are pairwise distinct — and the representative for
a subject is the FIRST trade in batch order among that subject's trades
attaining the greatest timestamp (strictly-greater replacement makes ties
first-seen-wins); in particular for timestamps [10, 30, 20] of one subject
the representative is the trade at timestamp 30. -/
theorem reducer_selects_first_trade_with_greatest_timestamp
    (trades : List Trade) (s : List Nat) :
    List.lookup s (reduceToLatest trades) =
      firstWithGreatestTs (trades.filter (fun t => t.subject == s)) ∧
    ((reduceToLatest trades).map Prod.fst).Nodup ∧
    mostRecentTrades [exTrade10, exTrade30, exTrade20] = [exTrade30] := by
  refine ⟨?_, reduceToLatest_keys_nodup trades, rfl⟩
  rw [reduceToLatest, foldl_updateMostRecent_lookup]
  cases hf : trades.filter (fun t => t.subject == s) with
  | nil => rfl
  | cons t ts =>
    show reduceSpecAcc none (t :: ts) = firstWithGreatestTs (t :: ts)
    rw [reduceSpecAcc_none_cons, foldl_pickLater_eq_firstWithGreatestTs]

/-! ## Endpoint selection (src/scanner.py, Scanner._get_w3)

`_get_w3` sorts the configured endpoints by the composite key
`(last_selected[rpc] - current_time, backoff_ratio(rpc),
requests_counter.get(rpc, 0))` ascending and takes the head; Python's
`sorted` is stable, so the head is the first endpoint of the configured
list attaining the minimal key.  It then increments the winner's request
counter and sets its last-selected time to the current time before
returning.  Endpoints are modelled by an abstract identifier type. -/

/-- Mutable per-endpoint bookkeeping of a `Scanner`: `last_selected`,
`requests_counter` (default 0), and `backoff_times` (default empty). -/
structure ScanState (α : Type) where
  lastSelected : α → Rat
  requestsCounter : α → Nat
  backoffTimes : α → List Rat

/-- `recent_backoffs(rpc)`: failures within the trailing 600-second
window. -/
def recentBackoffs {α : Type} (st : ScanState α) (now : Rat) (rpc : α) : Nat :=
  ((st.backoffTimes rpc).filter (fun ts => decide (now - ts < 600))).length

/-- `backoff_ratio(rpc)`: recent failures over request count plus the
epsilon 0.000001. -/
def backoffRatio {α : Type} (st : ScanState α) (now : Rat) (rpc : α) : Rat :=
  (recentBackoffs st now rpc : Rat) /
    ((st.requestsCounter rpc : Rat) + 1 / 1000000)

/-- Composite sort key of `_get_w3`. -/
def selKey {α : Type} (st : ScanState α) (now : Rat) (rpc : α) :
    Rat × Rat × Nat :=
  (st.lastSelected rpc - now, backoffRatio st now rpc,
    st.requestsCounter rpc)

/-- Lexicographic comparison of composite keys, as Python compares
tuples. -/
def keyLt (a b : Rat × Rat × Nat) : Prop :=
  a.1 < b.1 ∨ (a.1 = b.1 ∧
    (a.2.1 < b.2.1 ∨ (a.2.1 = b.2.1 ∧ a.2.2 < b.2.2)))

instance keyLtDec (a b : Rat × Rat × Nat) : Decidable (keyLt a b) :=
  inferInstanceAs (Decidable (a.1 < b.1 ∨ (a.1 = b.1 ∧
    (a.2.1 < b.2.1 ∨ (a.2.1 = b.2.1 ∧ a.2.2 < b.2.2)))))

/-- One comparison step of a stable minimum scan: the candidate replaces
the incumbent only on a strictly smaller key. -/
def pickStep {α : Type} (key : α → Rat × Rat × Nat) (b a : α) : α :=
  if keyLt (key a) (key b) then a else b

/-- Head of the stable ascending sort: the first element attaining the
minimal key. -/
def pickFirstMin {α : Type} (key : α → Rat × Rat × Nat) :
    List α → Option α
  | [] => none
  | x :: xs => some (xs.foldl (pickStep key) x)

/-- State update performed by `_get_w3` on the selected endpoint before
returning: request counter incremented, last-selected set to now. -/
def bumpState {α : Type} [DecidableEq α] (st : ScanState α) (rpc : α)
    (now : Rat) : ScanState α :=
  { lastSelected := fun r => if r = rpc then now else st.lastSelected r,
    requestsCounter := fun r =>
      if r = rpc then st.requestsCounter rpc + 1 else st.requestsCounter r,
    backoffTimes := st.backoffTimes }

/-- Embedding of `Scanner._get_w3`: select the first endpoint with minimal
composite key, bump its counters, return it with the new state. -/
def getW3 {α : Type} [DecidableEq α] (st : ScanState α) (rpcs : List α)
    (now : Rat) : Option (α × ScanState α) :=
  match pickFirstMin (selKey st now) rpcs with
  | none => none
  | some rpc => some (rpc, bumpState st rpc now)

/-- Consecutive calls to `_get_w3` at the given sequence of clock
readings: the endpoints selected, in order, and the final state. -/
def selectRun {α : Type} [DecidableEq α] (rpcs : List α) :
    ScanState α → List Rat → List α × ScanState α
  | st, [] => ([], st)
  | st, now :: rest =>
    match getW3 st rpcs now with
    | none => ([], st)
    | some (r, st2) =>
      let p := selectRun rpcs st2 rest
      (r :: p.1, p.2)

theorem keyLt_irrefl (k : Rat × Rat × Nat) : ¬ keyLt k k := by
  rintro (h | ⟨-, h | ⟨-, h⟩⟩) <;> exact lt_irrefl _ h

theorem pick_foldl_const {α : Type} (key : α → Rat × Rat × Nat) :
    ∀ (l : List α) (b : α), (∀ a ∈ l, ¬ keyLt (key a) (key b)) →
      l.foldl (pickStep key) b = b := by
  intro l
  induction l with
  | nil => intro b _; rfl
  | cons a l ih =>
    intro b h
    rw [List.foldl_cons, pickStep, if_neg (h a (List.mem_cons_self a l))]
    exact ih b (fun x hx => h x (List.mem_cons_of_mem a hx))

theorem pick_foldl_mem {α : Type} (key : α → Rat × Rat × Nat) :
    ∀ (l : List α) (b : α), l.foldl (pickStep key) b ∈ b :: l := by
  intro l
  induction l with
  | nil => intro b; simp
  | cons a l ih =>
    intro b
    rw [List.foldl_cons]
    by_cases hk : keyLt (key a) (key b)
    · have h := ih (pickStep key b a)
      rw [pickStep, if_pos hk] at h
      rw [pickStep, if_pos hk]
      exact List.mem_cons_of_mem b h
    · have h := ih (pickStep key b a)
      rw [pickStep, if_neg hk] at h
      rw [pickStep, if_neg hk]
      rcases List.mem_cons.mp h with h | h
      · rw [h]; exact List.mem_cons_self b _
      · exact List.mem_cons_of_mem b (List.mem_cons_of_mem a h)

theorem pickFirstMin_uniform {α : Type} (key : α → Rat × Rat × Nat)
    (done rest : List α) (r0 : α)
    (hdone : ∀ d ∈ done, keyLt (key r0) (key d))
    (hrest : ∀ r ∈ rest, key r = key r0) :
    pickFirstMin key (done ++ r0 :: rest) = some r0 := by
  have hconst : rest.foldl (pickStep key) r0 = r0 :=
    pick_foldl_const key rest r0
      (fun a ha => by rw [hrest a ha]; exact keyLt_irrefl _)
  cases done with
  | nil =>
    rw [List.nil_append, pickFirstMin, hconst]
  | cons d ds =>
    rw [List.cons_append, pickFirstMin, List.foldl_append]
    have hmem : ds.foldl (pickStep key) d ∈ d :: ds := pick_foldl_mem key ds d
    have hlt : keyLt (key r0) (key (ds.foldl (pickStep key) d)) :=
      hdone _ hmem
    rw [List.foldl_cons, pickStep, if_pos hlt, hconst]

theorem getW3_of_pick {α : Type} [DecidableEq α] (st : ScanState α)
    (rpcs : List α) (now : Rat) (r : α)
    (h : pickFirstMin (selKey st now) rpcs = some r) :
    getW3 st rpcs now = some (r, bumpState st r now) := by
  rw [getW3, h]

theorem selectRun_cons {α : Type} [DecidableEq α] (rpcs : List α)
    (st : ScanState α) (now : Rat) (ts : List Rat) (r : α)
    (st2 : ScanState α) (h : getW3 st rpcs now = some (r, st2)) :
    selectRun rpcs st (now :: ts) =
      (r :: (selectRun rpcs st2 ts).1, (selectRun rpcs st2 ts).2) := by
  simp only [selectRun, h]

theorem getW3_updates {α : Type} [DecidableEq α] (st : ScanState α)
    (rpcs : List α) (now : Rat) (r : α) (st2 : ScanState α)
    (h : getW3 st rpcs now = some (r, st2)) :
    st2.requestsCounter r = st.requestsCounter r + 1 ∧
    st2.lastSelected r = now ∧
    st2.backoffTimes = st.backoffTimes := by
  rw [getW3] at h
  cases hp : pickFirstMin (selKey st now) rpcs with
  | none => rw [hp] at h; exact absurd h (by simp)
  | some rpc =>
    rw [hp] at h
    have h2 : rpc = r ∧ bumpState st rpc now = st2 := by
      have := Option.some.inj h
      exact ⟨congrArg Prod.fst this, congrArg Prod.snd this⟩
    obtain ⟨hrr, hst⟩ := h2
    subst hrr
    rw [← hst]
    refine ⟨?_, ?_, rfl⟩
    · show (if rpc = rpc then st.requestsCounter rpc + 1
        else st.requestsCounter rpc) = st.requestsCounter rpc + 1
      rw [if_pos rfl]
    · show (if rpc = rpc then now else st.lastSelected rpc) = now
      rw [if_pos rfl]

theorem selectRun_uniform_aux {α : Type} [DecidableEq α]
    (T0 : Rat) (c0 : Nat) (f0 : List Rat) :
    ∀ (times : List Rat) (done rest : List α) (st : ScanState α),
      (done ++ rest).Nodup →
      (∀ r ∈ rest, st.lastSelected r = T0 ∧
        st.requestsCounter r = c0 ∧ st.backoffTimes r = f0) →
      (∀ d ∈ done, T0 < st.lastSelected d) →
      times.length = rest.length →
      (∀ t ∈ times, T0 < t) →
      (selectRun (done ++ rest) st times).1 = rest := by
  intro times
  induction times with
  | nil =>
    intro done rest st _ _ _ hlen _
    have hrest : rest = [] := List.eq_nil_of_length_eq_zero hlen.symm
    rw [hrest]
    rfl
  | cons now ts ih =>
    intro done rest st hnd huni hdone hlen hgt
    cases rest with
    | nil => simp at hlen
    | cons r0 rest2 =>
      have hkeys_eq : ∀ r ∈ rest2, selKey st now r = selKey st now r0 := by
        intro r hr
        obtain ⟨hL, hC, hF⟩ := huni r (List.mem_cons_of_mem r0 hr)
        obtain ⟨hL0, hC0, hF0⟩ := huni r0 (List.mem_cons_self r0 rest2)
        rw [selKey, selKey, hL, hL0, hC, hC0, backoffRatio, backoffRatio,
          recentBackoffs, recentBackoffs, hF, hF0, hC, hC0]
      have hkeys_lt : ∀ d ∈ done,
          keyLt (selKey st now r0) (selKey st now d) := by
        intro d hd
        left
        show st.lastSelected r0 - now < st.lastSelected d - now
        have h1 : st.lastSelected r0 = T0 :=
          (huni r0 (List.mem_cons_self r0 rest2)).1
        have h2 : T0 < st.lastSelected d := hdone d hd
        rw [h1]
        exact sub_lt_sub_right h2 now
      have hpick : pickFirstMin (selKey st now) (done ++ r0 :: rest2) =
          some r0 := pickFirstMin_uniform _ done rest2 r0 hkeys_lt hkeys_eq
      have hget := getW3_of_pick st (done ++ r0 :: rest2) now r0 hpick
      rw [selectRun_cons _ _ _ _ _ _ hget]
      have hdisj : List.Disjoint done (r0 :: rest2) :=
        List.disjoint_of_nodup_append hnd
      have hr0rest : r0 ∉ rest2 :=
        (List.nodup_cons.mp (List.Nodup.of_append_right hnd)).1
      have hnow : T0 < now := hgt now (List.mem_cons_self now ts)
      have hnd2 : ((done ++ [r0]) ++ rest2).Nodup := by
        rw [List.append_assoc, List.singleton_append]
        exact hnd
      have huni2 : ∀ r ∈ rest2,
          (bumpState st r0 now).lastSelected r = T0 ∧
          (bumpState st r0 now).requestsCounter r = c0 ∧
          (bumpState st r0 now).backoffTimes r = f0 := by
        intro r hr
        have hne : r ≠ r0 := fun he => hr0rest (he ▸ hr)
        obtain ⟨hL, hC, hF⟩ := huni r (List.mem_cons_of_mem r0 hr)
        refine ⟨?_, ?_, hF⟩
        · show (if r = r0 then now else st.lastSelected r) = T0
          rw [if_neg hne, hL]
        · show (if r = r0 then st.requestsCounter r0 + 1
            else st.requestsCounter r) = c0
          rw [if_neg hne, hC]
      have hdone2 : ∀ d ∈ done ++ [r0],
          T0 < (bumpState st r0 now).lastSelected d := by
        intro d hd
        rcases List.mem_append.mp hd with hd | hd
        · have hne : d ≠ r0 := fun he =>
            hdisj hd (he ▸ List.mem_cons_self r0 rest2)
          show T0 < (if d = r0 then now else st.lastSelected d)
          rw [if_neg hne]
          exact hdone d hd
        · have hde : d = r0 := by simpa using hd
          subst hde
          show T0 < (if d = d then now else st.lastSelected d)
          rw [if_pos rfl]
          exact hnow
      have hlen2 : ts.length = rest2.length := by
        simpa using hlen
      have hgt2 : ∀ t ∈ ts, T0 < t :=
        fun t ht => hgt t (List.mem_cons_of_mem now ht)
      have hrec := ih (done ++ [r0]) rest2 (bumpState st r0 now)
        hnd2 huni2 hdone2 hlen2 hgt2
      rw [List.append_assoc, List.singleton_append] at hrec
      show r0 :: (selectRun (done ++ r0 :: rest2)
        (bumpState st r0 now) ts).1 = r0 :: rest2
      rw [hrec]

/-- C5: with N distinct endpoints whose health records are equal (same
failure histories, same request counts) and whose last-selected times are
all T0, N consecutive calls to `_get_w3` at clock readings after T0 select
the endpoints of the configured list in order — each endpoint exactly once
before any repeats — and every call increments the chosen endpoint's
request counter and sets its last-selected time to the current time in the
state it returns. -/
theorem selector_cycles_fairly {α : Type} [DecidableEq α]
    (rpcs : List α) (st0 : ScanState α) (T0 : Rat) (c0 : Nat)
    (f0 : List Rat) (times : List Rat)
    (hnd : rpcs.Nodup)
    (hLS : ∀ r ∈ rpcs, st0.lastSelected r = T0)
    (hC : ∀ r ∈ rpcs, st0.requestsCounter r = c0)
    (hF : ∀ r ∈ rpcs, st0.backoffTimes r = f0)
    (hlen : times.length = rpcs.length)
    (hgt : ∀ t ∈ times, T0 < t) :
    (selectRun rpcs st0 times).1 = rpcs ∧
    (∀ (st : ScanState α) (now : Rat) (r : α) (st2 : ScanState α),
      getW3 st rpcs now = some (r, st2) →
      st2.requestsCounter r = st.requestsCounter r + 1 ∧
      st2.lastSelected r = now) := by
  constructor
  · have h := selectRun_uniform_aux T0 c0 f0 times [] rpcs st0
      (by simpa using hnd)
      (fun r hr => ⟨hLS r hr, hC r hr, hF r hr⟩)
      (fun d hd => absurd hd (List.not_mem_nil d))
      hlen hgt
    simpa using h
  · intro st now r st2 h
    exact ⟨(getW3_updates st rpcs now r st2 h).1,
      (getW3_updates st rpcs now r st2 h).2.1⟩

/-- Initial scanner state of the fairness witness: all last-selected times
0 (as `__init__` sets them), no requests, no failures. -/
def selectorWitnessState : ScanState Nat :=
  { lastSelected := fun _ => 0, requestsCounter := fun _ => 0,
    backoffTimes := fun _ => [] }

/-- C5, witness: three equal endpoints, three calls at times 1, 2, 3 —
each endpoint is selected exactly once, in list order. -/
theorem selector_cycles_fairly_witness :
    (selectRun [0, 1, 2] selectorWitnessState [1, 2, 3]).1 = [0, 1, 2] ∧
    (∀ (st : ScanState Nat) (now : Rat) (r : Nat) (st2 : ScanState Nat),
      getW3 st [0, 1, 2] now = some (r, st2) →
      st2.requestsCounter r = st.requestsCounter r + 1 ∧
      st2.lastSelected r = now) :=
  selector_cycles_fairly [0, 1, 2] selectorWitnessState 0 0 [] [1, 2, 3]
    (by decide) (fun r _ => rfl) (fun r _ => rfl) (fun r _ => rfl)
    rfl (by decide)

/-! ## Share records (db/models.py) and share persistence (db/operations.py) -/

/-- Share record of db/models.py: optional (nullable) fields are `Option`,
`Decimal` fields are `Rat`, fields in model declaration order. -/
structure Share where
  address : List Nat
  twitter_username : Option String
  twitter_name : Option String
  twitter_score : Option Rat
  registered : Option Int
  last_transaction : Int
  balance : Rat
  buy_price : Rat
  sell_price : Rat
  supply : Int
  rank : Option Int
deriving DecidableEq, Repr

/-- Value written by a SET clause for a nullable column: the new value when
present, otherwise the column keeps its stored value (no SET is emitted). -/
def orKeep {β : Type} (new old : Option β) : Option β :=
  match new with
  | some v => some v
  | none => old

/-- SET clauses applied by one UPDATE of `update_shares` to a matching row:
every field of the incoming Share that is not None — address excluded as
the key — is written; the model's non-optional fields are always non-None
in `model_dump`, so they are always written, and the `continue` guard for
an empty field set can never fire. -/
def applySetClause (row s : Share) : Share :=
  { address := row.address
    twitter_username := orKeep s.twitter_username row.twitter_username
    twitter_name := orKeep s.twitter_name row.twitter_name
    twitter_score := orKeep s.twitter_score row.twitter_score
    registered := orKeep s.registered row.registered
    last_transaction := s.last_transaction
    balance := s.balance
    buy_price := s.buy_price
    sell_price := s.sell_price
    supply := s.supply
    rank := orKeep s.rank row.rank }

/-- One `UPDATE shares SET … WHERE address = $1` statement: every row whose
address matches is updated. -/
def updateOneShare (db : List Share) (s : Share) : List Share :=
  db.map (fun row =>
    if row.address = s.address then applySetClause row s else row)

/-- Embedding of `update_shares` (db/operations.py): one UPDATE per Share,
executed sequentially inside one `db.transaction()`; the whole call is a
single atomic transformation of the table. -/
def update_shares (db : List Share) (shares : List Share) : List Share :=
  shares.foldl updateOneShare db

/-- One record of the `INSERT … ON CONFLICT (address) DO NOTHING` of
`insert_shares`: skipped when a row with the address exists. -/
def insertShareRow (db : List Share) (s : Share) : List Share :=
  if db.any (fun r => r.address = s.address) then db else db ++ [s]

/-- Embedding of `insert_shares` (db/operations.py): `executemany` runs the
conflict-skipping insert once per record, in order. -/
def insert_shares (db : List Share) (shares : List Share) : List Share :=
  shares.foldl insertShareRow db

/-- Invariant of the shares table: at most one row per subject address. -/
def uniqueAddresses (db : List Share) : Prop :=
  (db.map Share.address).Nodup

/-- `share_data` built by `process_trades_to_shares` for one representative
trade: address, last transaction, the live balance read, buy/sell unit
prices at the trade's reported supply, and the supply; enrichment fields
default to None.  `registered` is passed only on the create path. -/
def mkShareData (balanceOf : List Nat → Rat) (buyPrice sellPrice : Int → Rat)
    (t : Trade) (reg : Option Int) : Share :=
  { address := t.subject, twitter_username := none, twitter_name := none,
    twitter_score := none, registered := reg,
    last_transaction := t.timestamp, balance := balanceOf t.subject,
    buy_price := buyPrice t.supply, sell_price := sellPrice t.supply,
    supply := t.supply, rank := none }

/-- Partition of the representative trades into (shares_to_update,
shares_to_create) by membership of the subject in the set of known share
addresses fetched once at the start of the call; a create additionally
stamps `registered` with the trade's timestamp. -/
def classifyTrades (existing : List (List Nat))
    (balanceOf : List Nat → Rat) (buyPrice sellPrice : Int → Rat)
    (reps : List Trade) : List Share × List Share :=
  reps.foldl
    (fun acc t =>
      if t.subject ∈ existing then
        (acc.1 ++ [mkShareData balanceOf buyPrice sellPrice t none], acc.2)
      else
        (acc.1,
         acc.2 ++ [mkShareData balanceOf buyPrice sellPrice t
           (some t.timestamp)]))
    ([], [])

theorem classifyTrades_eq (existing : List (List Nat))
    (balanceOf : List Nat → Rat) (buyPrice sellPrice : Int → Rat)
    (reps : List Trade) :
    classifyTrades existing balanceOf buyPrice sellPrice reps =
      ((reps.filter (fun t => decide (t.subject ∈ existing))).map
         (fun t => mkShareData balanceOf buyPrice sellPrice t none),
       (reps.filter (fun t => decide (t.subject ∉ existing))).map
         (fun t => mkShareData balanceOf buyPrice sellPrice t
           (some t.timestamp))) := by
  rw [classifyTrades]
  have main : ∀ (ts : List Trade) (u c : List Share),
      ts.foldl
        (fun acc t =>
          if t.subject ∈ existing then
            (acc.1 ++ [mkShareData balanceOf buyPrice sellPrice t none],
             acc.2)
          else
            (acc.1,
             acc.2 ++ [mkShareData balanceOf buyPrice sellPrice t
               (some t.timestamp)]))
        (u, c) =
      (u ++ (ts.filter (fun t => decide (t.subject ∈ existing))).map
         (fun t => mkShareData balanceOf buyPrice sellPrice t none),
       c ++ (ts.filter (fun t => decide (t.subject ∉ existing))).map
         (fun t => mkShareData balanceOf buyPrice sellPrice t
           (some t.timestamp))) := by
    intro ts
    induction ts with
    | nil => intro u c; simp
    | cons t ts ih =>
      intro u c
      rw [List.foldl_cons]
      by_cases h : t.subject ∈ existing
      · have hd : decide (t.subject ∈ existing) = true := by simp [h]
        have hd2 : decide (t.subject ∉ existing) = false := by simp [h]
        rw [if_pos h, ih, List.filter_cons, List.filter_cons, hd, hd2]
        simp
      · have hd : decide (t.subject ∈ existing) = false := by simp [h]
        have hd2 : decide (t.subject ∉ existing) = true := by simp [h]
        rw [if_neg h, ih, List.filter_cons, List.filter_cons, hd, hd2]
        simp
  rw [main reps [] []]
  simp

theorem applySetClause_address (row s : Share) :
    (applySetClause row s).address = row.address := rfl

theorem updateOneShare_map_address (db : List Share) (s : Share) :
    (updateOneShare db s).map Share.address = db.map Share.address := by
  rw [updateOneShare, List.map_map]
  refine List.map_congr_left (fun row _ => ?_)
  by_cases h : row.address = s.address
  · simp [h, applySetClause]
  · simp [h]

theorem update_shares_map_address :
    ∀ (shares db : List Share),
      (update_shares db shares).map Share.address = db.map Share.address := by
  intro shares
  induction shares with
  | nil => intro db; rfl
  | cons s rest ih =>
    intro db
    show (update_shares (updateOneShare db s) rest).map Share.address = _
    rw [ih (updateOneShare db s), updateOneShare_map_address]

theorem updateOneShare_map_registered (db : List Share) (s : Share)
    (hs : s.registered = none) :
    (updateOneShare db s).map Share.registered =
      db.map Share.registered := by
  rw [updateOneShare, List.map_map]
  refine List.map_congr_left (fun row _ => ?_)
  by_cases h : row.address = s.address
  · simp [h, applySetClause, orKeep, hs]
  · simp [h]

theorem update_shares_map_registered :
    ∀ (shares db : List Share), (∀ s ∈ shares, s.registered = none) →
      (update_shares db shares).map Share.registered =
        db.map Share.registered := by
  intro shares
  induction shares with
  | nil => intro db _; rfl
  | cons s rest ih =>
    intro db hall
    show (update_shares (updateOneShare db s) rest).map Share.registered = _
    rw [ih (updateOneShare db s)
      (fun x hx => hall x (List.mem_cons_of_mem s hx)),
      updateOneShare_map_registered db s (hall s (List.mem_cons_self s rest))]

theorem insert_shares_spec :
    ∀ (shares db : List Share), uniqueAddresses db →
      ∃ ext, insert_shares db shares = db ++ ext ∧
        (∀ r ∈ ext, r.address ∉ db.map Share.address) ∧
        uniqueAddresses (db ++ ext) := by
  intro shares
  induction shares with
  | nil =>
    intro db hu
    exact ⟨[], by simp [insert_shares], by simp, by simpa using hu⟩
  | cons s rest ih =>
    intro db hu
    by_cases h : db.any (fun r => r.address = s.address)
    · have hstep : insertShareRow db s = db := by
        rw [insertShareRow, if_pos h]
      obtain ⟨ext, he, hna, hun⟩ := ih db hu
      refine ⟨ext, ?_, hna, hun⟩
      show rest.foldl insertShareRow (insertShareRow db s) = db ++ ext
      rw [hstep]
      exact he
    · have hstep : insertShareRow db s = db ++ [s] := by
        rw [insertShareRow, if_neg h]
      have hsa : s.address ∉ db.map Share.address := by
        intro hmem
        obtain ⟨r, hr, hre⟩ := List.mem_map.mp hmem
        exact h (List.any_eq_true.mpr ⟨r, hr, by simp [hre]⟩)
      have hu2 : uniqueAddresses (db ++ [s]) := by
        rw [uniqueAddresses, List.map_append]
        exact List.Nodup.append hu (List.nodup_singleton _)
          (by simpa using hsa)
      obtain ⟨ext, he, hna, hun⟩ := ih (db ++ [s]) hu2
      have hassoc : (db ++ [s]) ++ ext = db ++ s :: ext := by
        rw [List.append_assoc, List.singleton_append]
      refine ⟨s :: ext, ?_, ?_, ?_⟩
      · show rest.foldl insertShareRow (insertShareRow db s) = db ++ s :: ext
        rw [hstep, ← hassoc]
        exact he
      · intro r hr
        rcases List.mem_cons.mp hr with h1 | h1
        · rw [h1]; exact hsa
        · intro hmem
          exact hna r h1
            (by rw [List.map_append]; exact List.mem_append_left _ hmem)
      · rw [← hassoc]
        exact hun

theorem update_shares_eq_single_pass :
    ∀ (shares db : List Share), (shares.map Share.address).Nodup →
      update_shares db shares = db.map (fun row =>
        match shares.find? (fun s => s.address == row.address) with
        | some s => applySetClause row s
        | none => row) := by
  intro shares
  induction shares with
  | nil =>
    intro db _
    show db = db.map (fun row => row)
    rw [List.map_id']
  | cons s rest ih =>
    intro db hnd
    have hs_not : s.address ∉ rest.map Share.address :=
      (List.nodup_cons.mp hnd).1
    have hrest : (rest.map Share.address).Nodup :=
      (List.nodup_cons.mp hnd).2
    show update_shares (updateOneShare db s) rest = _
    rw [ih (updateOneShare db s) hrest, updateOneShare, List.map_map]
    refine List.map_congr_left (fun row _ => ?_)
    by_cases h : row.address = s.address
    · have hb : (s.address == row.address) = true := by simp [h.symm]
      have hinner : (if row.address = s.address
          then applySetClause row s else row) = applySetClause row s :=
        if_pos h
      have hf : rest.find?
          (fun s' => s'.address == (applySetClause row s).address) = none := by
        apply List.find?_eq_none.mpr
        intro x hx
        rw [applySetClause_address, h]
        simp only [beq_iff_eq, Bool.not_eq_true]
        intro he
        exact absurd (List.mem_map.mpr ⟨x, hx, he⟩) hs_not
      show (match rest.find? (fun s' => s'.address ==
          (if row.address = s.address then applySetClause row s
            else row).address) with
        | some s' => applySetClause (if row.address = s.address
            then applySetClause row s else row) s'
        | none => (if row.address = s.address
            then applySetClause row s else row)) = _
      rw [hinner, hf, List.find?_cons, hb]
    · have hb : (s.address == row.address) = false := by
        simp only [beq_eq_false_iff_ne, ne_eq]
        exact fun he => h he.symm
      have hinner : (if row.address = s.address
          then applySetClause row s else row) = row := if_neg h
      show (match rest.find? (fun s' => s'.address ==
          (if row.address = s.address then applySetClause row s
            else row).address) with
        | some s' => applySetClause (if row.address = s.address
            then applySetClause row s else row) s'
        | none => (if row.address = s.address
            then applySetClause row s else row)) = _
      rw [hinner, List.find?_cons, hb]

/-- C6: a representative trade whose subject is absent from the known
addresses is classified "create" and its Share carries
`registered = trade.timestamp`; one whose subject is present is classified
"update" with `registered = None`, every update-path Share has
`registered = None`, and applying `update_shares` with such Shares leaves
every stored row's registered timestamp unchanged. -/
theorem create_stamps_registered_update_keeps_it
    (existing : List (List Nat)) (balanceOf : List Nat → Rat)
    (buyPrice sellPrice : Int → Rat) (reps : List Trade) (t : Trade)
    (hmem : t ∈ reps) :
    (t.subject ∉ existing →
      mkShareData balanceOf buyPrice sellPrice t (some t.timestamp) ∈
        (classifyTrades existing balanceOf buyPrice sellPrice reps).2 ∧
      (mkShareData balanceOf buyPrice sellPrice t
        (some t.timestamp)).registered = some t.timestamp) ∧
    (t.subject ∈ existing →
      mkShareData balanceOf buyPrice sellPrice t none ∈
        (classifyTrades existing balanceOf buyPrice sellPrice reps).1) ∧
    (∀ u ∈ (classifyTrades existing balanceOf buyPrice sellPrice reps).1,
      u.registered = none) ∧
    (∀ (db shares : List Share), (∀ s ∈ shares, s.registered = none) →
      (update_shares db shares).map Share.registered =
        db.map Share.registered) := by
  rw [classifyTrades_eq]
  refine ⟨?_, ?_, ?_, ?_⟩
  · intro habs
    refine ⟨?_, rfl⟩
    exact List.mem_map.mpr ⟨t, List.mem_filter.mpr ⟨hmem, by simp [habs]⟩, rfl⟩
  · intro hpres
    exact List.mem_map.mpr ⟨t, List.mem_filter.mpr ⟨hmem, by simp [hpres]⟩, rfl⟩
  · intro u hu
    obtain ⟨x, _, hx⟩ := List.mem_map.mp hu
    rw [← hx]
    rfl
  · exact fun db shares h => update_shares_map_registered shares db h

/-- C6, witness: a batch with one unknown and one known subject — the
unknown subject's Share is created with the trade's timestamp, the known
subject's Share goes to the update list with no registered value, and
updating a one-row table with it leaves the stored registered value. -/
theorem create_stamps_registered_update_keeps_it_witness :
    sampleTrade ∈ [sampleTrade] ∧
    (sampleTrade.subject ∉ ([[0xff]] : List (List Nat)) →
      mkShareData (fun _ => 0) (fun _ => 1) (fun _ => 2) sampleTrade
        (some sampleTrade.timestamp) ∈
        (classifyTrades [[0xff]] (fun _ => 0) (fun _ => 1) (fun _ => 2)
          [sampleTrade]).2 ∧
      (mkShareData (fun _ => 0) (fun _ => 1) (fun _ => 2) sampleTrade
        (some sampleTrade.timestamp)).registered =
        some sampleTrade.timestamp) ∧
    (sampleTrade.subject ∈ ([[0xff]] : List (List Nat)) →
      mkShareData (fun _ => 0) (fun _ => 1) (fun _ => 2) sampleTrade none ∈
        (classifyTrades [[0xff]] (fun _ => 0) (fun _ => 1) (fun _ => 2)
          [sampleTrade]).1) ∧
    (∀ u ∈ (classifyTrades [[0xff]] (fun _ => 0) (fun _ => 1) (fun _ => 2)
        [sampleTrade]).1, u.registered = none) ∧
    (∀ (db shares : List Share), (∀ s ∈ shares, s.registered = none) →
      (update_shares db shares).map Share.registered =
        db.map Share.registered) :=
  ⟨List.mem_cons_self _ _,
   create_stamps_registered_update_keeps_it [[0xff]] (fun _ => 0)
     (fun _ => 1) (fun _ => 2) [sampleTrade] sampleTrade
     (List.mem_cons_self _ _)⟩

/-- C7: both Share-writing operations preserve the at-most-one-row-per-
address invariant: `insert_shares` only appends rows whose addresses were
absent, leaving every existing row in place (so inserting a Share for a
present address adds no second row and changes nothing), and
`update_shares` rewrites rows in place keyed by address — the address
column of the table is unchanged, so no row is created or deleted. -/
theorem share_uniqueness_preserved (db shares : List Share)
    (hu : uniqueAddresses db) :
    (∃ ext, insert_shares db shares = db ++ ext ∧
      (∀ r ∈ ext, r.address ∉ db.map Share.address) ∧
      uniqueAddresses (insert_shares db shares)) ∧
    (update_shares db shares).map Share.address = db.map Share.address ∧
    uniqueAddresses (update_shares db shares) := by
  obtain ⟨ext, he, hna, hun⟩ := insert_shares_spec shares db hu
  refine ⟨⟨ext, he, hna, ?_⟩, update_shares_map_address shares db, ?_⟩
  · rw [he]; exact hun
  · rw [uniqueAddresses, update_shares_map_address shares db]
    exact hu

/-- Share row used in concrete share-table scenarios. -/
def frameRow : Share :=
  { address := [7], twitter_username := none, twitter_name := none,
    twitter_score := none, registered := some 5, last_transaction := 1,
    balance := 0, buy_price := 0, sell_price := 0, supply := 1,
    rank := none }

/-- Update share for frameRow's address with a null twitter_username. -/
def frameS1 : Share := { frameRow with registered := none, last_transaction := 2 }

/-- Second update share for the same address carrying a non-null
twitter_username. -/
def frameS2 : Share :=
  { frameRow with
    registered := none
    last_transaction := 2
    twitter_username := some "x" }

/-- Share with an address different from frameRow's. -/
def otherShare : Share := { frameS1 with address := [9] }

/-- C7, witness: on a one-row table, inserting a Share with a fresh
address appends it without touching the existing row, and updating keys by
address without creating or deleting rows. -/
theorem share_uniqueness_preserved_witness :
    uniqueAddresses [frameRow] ∧
    ((∃ ext, insert_shares [frameRow] [otherShare] = [frameRow] ++ ext ∧
      (∀ r ∈ ext, r.address ∉ [frameRow].map Share.address) ∧
      uniqueAddresses (insert_shares [frameRow] [otherShare])) ∧
    (update_shares [frameRow] [otherShare]).map Share.address =
      [frameRow].map Share.address ∧
    uniqueAddresses (update_shares [frameRow] [otherShare])) :=
  ⟨by show (([frameRow].map Share.address).Nodup); decide,
   share_uniqueness_preserved [frameRow] [otherShare]
     (by show (([frameRow].map Share.address).Nodup); decide)⟩

/-- C8, counterexample: when two Shares of one call alias the same
address, a null field of the earlier Share is overwritten by the later
one: for the stored row with null twitter_username and the batch
[frameS1, frameS2] — frameS1's twitter_username is null — the row's
twitter_username is `some "x"` after the call, so a null field of a passed
Share's row did change. -/
theorem update_shares_aliased_null_field_overwritten :
    frameS1.twitter_username = none ∧
    frameS1.address = frameRow.address ∧
    frameRow.twitter_username = none ∧
    (update_shares [frameRow] [frameS1, frameS2]).map
      Share.twitter_username = [some "x"] :=
  ⟨rfl, rfl, rfl, rfl⟩

/-- C8, amended: provided no two Shares of one call share an address (true
of every call site: subjects are unique after reduction, and the
enrichment path updates distinct rows), the call equals a single pass over
the table that applies to each row exactly the SET clauses of the Share
keyed to its address — leaving rows with no matching Share untouched — and
each application writes only non-null fields: every null optional field of
the Share leaves the row's value, the address is never written, and the
non-nullable fields are always written.  The whole call runs inside one
`db.transaction()`, modelled as one atomic transformation. -/
theorem update_shares_nonnull_field_frame (db shares : List Share)
    (hnd : (shares.map Share.address).Nodup) :
    update_shares db shares = db.map (fun row =>
      match shares.find? (fun s => s.address == row.address) with
      | some s => applySetClause row s
      | none => row) ∧
    (∀ row s : Share,
      (applySetClause row s).address = row.address ∧
      (s.twitter_username = none →
        (applySetClause row s).twitter_username = row.twitter_username) ∧
      (s.twitter_name = none →
        (applySetClause row s).twitter_name = row.twitter_name) ∧
      (s.twitter_score = none →
        (applySetClause row s).twitter_score = row.twitter_score) ∧
      (s.registered = none →
        (applySetClause row s).registered = row.registered) ∧
      (s.rank = none → (applySetClause row s).rank = row.rank) ∧
      (applySetClause row s).last_transaction = s.last_transaction ∧
      (applySetClause row s).balance = s.balance ∧
      (applySetClause row s).buy_price = s.buy_price ∧
      (applySetClause row s).sell_price = s.sell_price ∧
      (applySetClause row s).supply = s.supply) := by
  refine ⟨update_shares_eq_single_pass shares db hnd, fun row s => ?_⟩
  refine ⟨rfl, ?_, ?_, ?_, ?_, ?_, rfl, rfl, rfl, rfl, rfl⟩ <;>
    exact fun h => by simp [applySetClause, orKeep, h]

/-- C8, amended, witness: a one-row table updated with one Share. -/
theorem update_shares_nonnull_field_frame_witness :
    (([frameS2].map Share.address).Nodup) ∧
    (update_shares [frameRow] [frameS2] = [frameRow].map (fun row =>
      match [frameS2].find? (fun s => s.address == row.address) with
      | some s => applySetClause row s
      | none => row) ∧
    (∀ row s : Share,
      (applySetClause row s).address = row.address ∧
      (s.twitter_username = none →
        (applySetClause row s).twitter_username = row.twitter_username) ∧
      (s.twitter_name = none →
        (applySetClause row s).twitter_name = row.twitter_name) ∧
      (s.twitter_score = none →
        (applySetClause row s).twitter_score = row.twitter_score) ∧
      (s.registered = none →
        (applySetClause row s).registered = row.registered) ∧
      (s.rank = none → (applySetClause row s).rank = row.rank) ∧
      (applySetClause row s).last_transaction = s.last_transaction ∧
      (applySetClause row s).balance = s.balance ∧
      (applySetClause row s).buy_price = s.buy_price ∧
      (applySetClause row s).sell_price = s.sell_price ∧
      (applySetClause row s).supply = s.supply)) :=
  ⟨by decide, update_shares_nonnull_field_frame [frameRow] [frameS2]
    (by decide)⟩

/-! ## Bonding-curve pricing (src/contract.py) -/

/-- Embedding of `Contract.calc_price`: the cubic-sum difference scaled by
`* 10**18 // 16000`, with Python floor division. -/
def calc_price (supply amount : Int) : Int :=
  let sum1 : Int := if supply = 0 then 0 else
    Int.fdiv ((supply - 1) * supply * (2 * (supply - 1) + 1)) 6
  let sum2 : Int := if supply = 0 ∧ amount = 1 then 0 else
    Int.fdiv ((supply - 1 + amount) * (supply + amount) *
      (2 * (supply - 1 + amount) + 1)) 6
  Int.fdiv ((sum2 - sum1) * 10 ^ 18) 16000

/-- Modelled from the spec: the exact value the spec's `buyPriceAfterFee`
contract requires — the base price plus a 5% protocol fee plus a 5%
subject fee, in exact arithmetic.  The source computes
`price + price * 0.05 + price * 0.05` in IEEE-754 double precision
instead. -/
def buyPriceAfterFeeExact (supply amount : Int) : Rat :=
  ((calc_price supply amount : Int) : Rat) +
    (calc_price supply amount : Rat) * (5 / 100) +
    (calc_price supply amount : Rat) * (5 / 100)

/-- Modelled from the spec: the exact `sellPriceAfterFee` — the base price
at supply - amount minus the two 5% fees. -/
def sellPriceAfterFeeExact (supply amount : Int) : Rat :=
  ((calc_price (supply - amount) amount : Int) : Rat) -
    (calc_price (supply - amount) amount : Rat) * (5 / 100) -
    (calc_price (supply - amount) amount : Rat) * (5 / 100)

/-- C9: at supply 367, amount 1 the exact after-fee buy price is the
integer 9259868750000000000 = 2^10 * 9042840576171875, whose odd factor
exceeds 2^53.  A binary double of that magnitude cannot carry a 54-bit
significand, so the float expression `price + price * 0.05 + price * 0.05`
of `calc_buy_price_after_fee` cannot equal the claimed integer (Python
returns the float 9259868749999998976.0, off by 1024), and its return type
is float, not integer. -/
theorem buy_price_after_fee_exact_not_a_double :
    calc_price 367 1 = 8418062500000000000 ∧
    buyPriceAfterFeeExact 367 1 = (9259868750000000000 : Rat) ∧
    (9259868750000000000 : Int) = 2 ^ 10 * 9042840576171875 ∧
    (9042840576171875 : Int) % 2 = 1 ∧
    (2 : Int) ^ 53 < 9042840576171875 := by
  have hp : calc_price 367 1 = 8418062500000000000 := by decide
  refine ⟨hp, ?_, by decide, by decide, by decide⟩
  rw [buyPriceAfterFeeExact, hp]
  norm_num

end FriendTech
